import Mathlib

/-!
Verification of the line-oriented interpreter (main.go): tokenizer,
recursive-descent expression parser/evaluator, statement dispatcher and the
global variable/function store.

Modelling conventions, fixed once for the whole development:

* float64 values are modelled exactly: an `FVal` is a finite rational in
  lowest terms, positive infinity, negative infinity, or NaN.  Rounding of
  float64 arithmetic is ignored (all scenario values are exactly
  representable); negative zero is identified with zero (the code's division
  path `val / 0.0` makes a `-0.0` divisor behave as `+0.0` anyway).
* Go's conversion chain `float64(int64(v))` (truncation toward zero) is
  modelled by `ftrunc`, including the amd64 behaviour of out-of-range, NaN
  and infinite inputs, all of which convert to `-2^63`.
* Go maps are modelled by association lists; `insertVar` overwrites the
  binding of a key and `eraseVar` (Go `delete`) removes it.  Map iteration
  order (used only by the bulk `print` statement) is modelled as list order.
* Recursion through function calls is unbounded in the source (a function
  body may call functions again); the mutual parser definitions therefore
  take a fuel parameter, decremented at every call, and report an error when
  exhausted.  Every theorem either holds for all fuel values or takes the
  fuel as a variable.
* `fmt.Printf`/`fmt.Println` emissions are modelled as a list of output
  lines (one entry per emission, trailing newline implicit; the text of
  float formatting (`%g`) is modelled up to number formatting).
* Go's `unicode.IsSpace` / `unicode.IsLetter` are modelled on the ASCII
  range (`goIsSpace`, `goIsLetter`); the claims only involve ASCII input.
-/

/-- Fuel-driven Euclidean algorithm; `gcdF (a+1) a b` equals `Nat.gcd a b`
and, unlike the library function, reduces inside the kernel. -/
def gcdF : Nat → Nat → Nat → Nat
  | 0, _, b => b
  | _ + 1, 0, b => b
  | f + 1, a, b => gcdF f (b % a) a

/-- Greatest common divisor via `gcdF` (the first argument strictly
decreases at every step, so `a + 1` units of fuel always suffice). -/
def myGcd (a b : Nat) : Nat := gcdF (a + 1) a b

/-- An exact rational number: integer numerator and natural denominator.
Values built by `mkQ` are in lowest terms with positive denominator, so
structural equality coincides with value equality. -/
structure ExactQ where
  num : Int
  den : Nat
  deriving DecidableEq, Repr

/-- Normalising constructor: reduce `n / d` to lowest terms.  A zero
denominator (never produced by the interpreter, whose division guards the
divisor) is mapped to `0`. -/
def mkQ (n : Int) (d : Nat) : ExactQ :=
  if d = 0 then ⟨0, 1⟩
  else
    let g := myGcd n.natAbs d
    ⟨n.tdiv (Int.ofNat g), d / g⟩

def qZero : ExactQ := ⟨0, 1⟩

def qadd (a b : ExactQ) : ExactQ :=
  mkQ (a.num * Int.ofNat b.den + b.num * Int.ofNat a.den) (a.den * b.den)

def qsub (a b : ExactQ) : ExactQ :=
  mkQ (a.num * Int.ofNat b.den - b.num * Int.ofNat a.den) (a.den * b.den)

def qmul (a b : ExactQ) : ExactQ :=
  mkQ (a.num * b.num) (a.den * b.den)

/-- Exact division `a / b` for `b ≠ 0`; the sign of `b` is moved into the
numerator so the denominator stays natural. -/
def qdiv (a b : ExactQ) : ExactQ :=
  mkQ (if b.num < 0 then -(a.num * Int.ofNat b.den) else a.num * Int.ofNat b.den)
    (a.den * b.num.natAbs)

/-- A float64 value: exact finite rational, an infinity, or NaN. -/
inductive FVal where
  | finite (q : ExactQ)
  | posInf
  | negInf
  | nan
  deriving DecidableEq, Repr

def FVal.zero : FVal := .finite qZero

/-- IEEE addition (exact, no rounding). -/
def fadd : FVal → FVal → FVal
  | .nan, _ => .nan
  | _, .nan => .nan
  | .posInf, .negInf => .nan
  | .negInf, .posInf => .nan
  | .posInf, _ => .posInf
  | _, .posInf => .posInf
  | .negInf, _ => .negInf
  | _, .negInf => .negInf
  | .finite a, .finite b => .finite (qadd a b)

/-- IEEE subtraction (exact, no rounding). -/
def fsub : FVal → FVal → FVal
  | .nan, _ => .nan
  | _, .nan => .nan
  | .posInf, .posInf => .nan
  | .negInf, .negInf => .nan
  | .posInf, _ => .posInf
  | _, .posInf => .negInf
  | .negInf, _ => .negInf
  | _, .negInf => .posInf
  | .finite a, .finite b => .finite (qsub a b)

/-- IEEE multiplication (exact, no rounding; `∞ * 0 = NaN`). -/
def fmul : FVal → FVal → FVal
  | .nan, _ => .nan
  | _, .nan => .nan
  | .posInf, .posInf => .posInf
  | .posInf, .negInf => .negInf
  | .negInf, .posInf => .negInf
  | .negInf, .negInf => .posInf
  | .posInf, .finite b => if b.num = 0 then .nan else if b.num < 0 then .negInf else .posInf
  | .negInf, .finite b => if b.num = 0 then .nan else if b.num < 0 then .posInf else .negInf
  | .finite a, .posInf => if a.num = 0 then .nan else if a.num < 0 then .negInf else .posInf
  | .finite a, .negInf => if a.num = 0 then .nan else if a.num < 0 then .posInf else .negInf
  | .finite a, .finite b => .finite (qmul a b)

/-- IEEE comparison with zero, as in Go's `right == 0` (NaN compares false,
infinities compare false). -/
def feqZero : FVal → Bool
  | .finite q => q.num = 0
  | _ => false

/-- IEEE division by positive zero, the code's explicit `val / 0.0` branch. -/
def fdivByZero : FVal → FVal
  | .nan => .nan
  | .posInf => .posInf
  | .negInf => .negInf
  | .finite a => if a.num = 0 then .nan else if a.num < 0 then .negInf else .posInf

/-- IEEE division for a divisor that is not zero (the code's `val /= right`
branch, reached only after the `right == 0` test fails). -/
def fdiv : FVal → FVal → FVal
  | .nan, _ => .nan
  | _, .nan => .nan
  | .posInf, .posInf => .nan
  | .posInf, .negInf => .nan
  | .negInf, .posInf => .nan
  | .negInf, .negInf => .nan
  | .posInf, .finite b => if b.num < 0 then .negInf else .posInf
  | .negInf, .finite b => if b.num < 0 then .posInf else .negInf
  | .finite _, .posInf => .finite qZero
  | .finite _, .negInf => .finite qZero
  | .finite a, .finite b => .finite (qdiv a b)

/-- The int64 range bound `2^63`. -/
def i64Bound : Int := 9223372036854775808

/-- Go's `float64(int64(v))`: truncation toward zero.  On amd64 an
out-of-range, infinite or NaN input converts to the minimal int64. -/
def ftrunc : FVal → FVal
  | .finite q =>
    let t := q.num.tdiv (Int.ofNat q.den)
    if t < -i64Bound ∨ i64Bound ≤ t + 1 then .finite ⟨-i64Bound, 1⟩
    else .finite ⟨t, 1⟩
  | _ => .finite ⟨-i64Bound, 1⟩

/-- Go's exact-integer test `float64(int64(v)) == v` (IEEE equality, hence
false for NaN; false for infinities and out-of-int64-range values). -/
def isExactInt (v : FVal) : Bool :=
  match v, ftrunc v with
  | .nan, _ => false
  | w, t => t = w

/-- A stored variable: its fixed kind flag and its current value
(`main.go`, type `Variable`). -/
structure Variable where
  isInt : Bool
  value : FVal
  deriving DecidableEq, Repr

/-- A stored function: parameter names in order, and the body kept as
unparsed text (`main.go`, type `Function`). -/
structure Function where
  params : List String
  expression : String
  deriving DecidableEq, Repr

/-- The variables map, as an association list standing for the Go map. -/
abbrev VarMap : Type := List (String × Variable)

/-- The functions map, as an association list standing for the Go map. -/
abbrev FuncMap : Type := List (String × Function)

def lookupVar : VarMap → String → Option Variable
  | [], _ => none
  | (k, v) :: rest, n => if k = n then some v else lookupVar rest n

/-- Go map assignment `variables[name] = x`: overwrite or append. -/
def insertVar : VarMap → String → Variable → VarMap
  | [], n, x => [(n, x)]
  | (k, v) :: rest, n, x =>
    if k = n then (k, x) :: rest else (k, v) :: insertVar rest n x

/-- Go map deletion `delete(variables, name)`. -/
def eraseVar (m : VarMap) (n : String) : VarMap :=
  m.filter (fun p => p.1 ≠ n)

def lookupFn : FuncMap → String → Option Function
  | [], _ => none
  | (k, v) :: rest, n => if k = n then some v else lookupFn rest n

/-- Go map assignment `functions[name] = x` (`setFunction`). -/
def insertFn : FuncMap → String → Function → FuncMap
  | [], n, x => [(n, x)]
  | (k, v) :: rest, n, x =>
    if k = n then (k, x) :: rest else (k, v) :: insertFn rest n x

/-- `setVariable` (main.go lines 30-49): if the variable exists its stored
kind wins — the passed flag is discarded and the value coerced to the old
kind (truncated for int); a new variable takes the passed flag, with the
value truncated when the flag is int. -/
def setVariable (m : VarMap) (name : String) (isInt : Bool) (val : FVal) : VarMap :=
  match lookupVar m name with
  | some v =>
    insertVar m name ⟨v.isInt, if v.isInt then ftrunc val else val⟩
  | none =>
    insertVar m name ⟨isInt, if isInt then ftrunc val else val⟩

/-! ## Tokenizer -/

/-- ASCII fragment of Go's `unicode.IsSpace`. -/
def goIsSpace (c : Char) : Bool :=
  c = ' ' || c = '\t' || c = '\n' || c = '\x0b' || c = '\x0c' || c = '\r'

def goIsDigit (c : Char) : Bool := '0' ≤ c && c ≤ '9'

/-- ASCII fragment of Go's `unicode.IsLetter`. -/
def goIsLetter (c : Char) : Bool := c.isAlpha

def goIsIdentCont (c : Char) : Bool := goIsLetter c || goIsDigit c || c = '_'

inductive TokenType where
  | number
  | ident
  | plus
  | minus
  | star
  | slash
  | lparen
  | rparen
  | comma
  | eof
  | error
  deriving DecidableEq, Repr

structure Token where
  typ : TokenType
  value : String
  deriving DecidableEq, Repr

/-- The whitespace-skipping loop at the start of `NextToken`. -/
def skipSpaces : List Char → List Char
  | [] => []
  | c :: cs => if goIsSpace c then skipSpaces cs else c :: cs

/-- The number-scanning loop of `NextToken`: maximal run of digits with at
most one dot; a second dot terminates the token without being consumed. -/
def scanNumber : Nat → List Char → List Char × List Char
  | _, [] => ([], [])
  | dotCount, c :: cs =>
    if goIsDigit c then
      let (tok, rest) := scanNumber dotCount cs
      (c :: tok, rest)
    else if c = '.' then
      if dotCount + 1 > 1 then ([], c :: cs)
      else
        let (tok, rest) := scanNumber (dotCount + 1) cs
        (c :: tok, rest)
    else ([], c :: cs)

/-- The identifier-scanning loop of `NextToken`. -/
def scanIdent : List Char → List Char × List Char
  | [] => ([], [])
  | c :: cs =>
    if goIsIdentCont c then
      let (tok, rest) := scanIdent cs
      (c :: tok, rest)
    else ([], c :: cs)

/-- `Lexer.NextToken`: produce one token and the remaining input.  A NUL
character reads as end of input (Go's `peekRune` sentinel) and is not
consumed. -/
def nextToken (input : List Char) : Token × List Char :=
  match skipSpaces input with
  | [] => (⟨.eof, ""⟩, [])
  | c :: cs =>
    if c = '\x00' then (⟨.eof, ""⟩, c :: cs)
    else if c = '+' then (⟨.plus, "+"⟩, cs)
    else if c = '-' then (⟨.minus, "-"⟩, cs)
    else if c = '*' then (⟨.star, "*"⟩, cs)
    else if c = '/' then (⟨.slash, "/"⟩, cs)
    else if c = '(' then (⟨.lparen, "("⟩, cs)
    else if c = ')' then (⟨.rparen, ")"⟩, cs)
    else if c = ',' then (⟨.comma, ","⟩, cs)
    else if goIsDigit c then
      let (tok, rest) := scanNumber 0 (c :: cs)
      (⟨.number, String.mk tok⟩, rest)
    else if goIsLetter c || c = '_' then
      let (tok, rest) := scanIdent (c :: cs)
      (⟨.ident, String.mk tok⟩, rest)
    else (⟨.error, String.mk [c]⟩, cs)

/-- Digit run to natural number. -/
def digitsToNat : List Char → Nat :=
  List.foldl (fun n c => n * 10 + (c.toNat - '0'.toNat)) 0

/-- Model of `strconv.ParseFloat` on the tokenizer's number tokens: exact
rational value of `intpart[.fracpart]`; `none` on malformed text (never
produced by the tokenizer, matching the dead error branch in the source). -/
def parseNumberQ (s : String) : Option ExactQ :=
  let cs := s.data
  let ip := cs.takeWhile (fun c => c ≠ '.')
  let rest := cs.dropWhile (fun c => c ≠ '.')
  let fp := rest.drop 1
  if ip.all goIsDigit && fp.all goIsDigit && ip ≠ [] && (rest.drop 1).all goIsDigit then
    some (mkQ (Int.ofNat (digitsToNat ip * 10 ^ fp.length + digitsToNat fp)) (10 ^ fp.length))
  else none

/-! ## Expression parser and evaluator -/

/-- Parser context: remaining lexer input, current token, sticky error
message (`Parser` in main.go; the error flag is `errMsg ≠ ""`). -/
structure PCtx where
  rest : List Char
  curr : Token
  errMsg : String
  deriving DecidableEq, Repr

/-- Evaluation-visible mutable state: the variables map and the emitted
output lines.  The functions map is passed separately since no evaluator
path writes it. -/
structure EStore where
  vars : VarMap
  out : List String
  deriving DecidableEq, Repr

/-- `Parser.next`: pull one token from the lexer. -/
def pnext (p : PCtx) : PCtx :=
  let (t, r) := nextToken p.rest
  { rest := r, curr := t, errMsg := p.errMsg }

/-- `Parser.error`: unconditionally store the message. -/
def perror (p : PCtx) (msg : String) : PCtx :=
  { p with errMsg := msg }

/-- `NewParser`: fresh context with the first token pulled and no error. -/
def initParser (s : String) : PCtx :=
  let (t, r) := nextToken s.data
  ⟨r, t, ""⟩

def undeclFnMsg (n : String) : String :=
  "ОШИБКА: использование не объявленной функции \"" ++ n ++ "\""

def undeclVarMsg (n : String) : String :=
  "ОШИБКА: использование не объявленной переменной \"" ++ n ++ "\""

def arityMsg (n : String) (want got : Nat) : String :=
  "Функция " ++ n ++ " ожидала " ++ toString want ++ " аргументов, передано " ++ toString got

/-- Error message reported when the model's recursion fuel runs out; stands
for the nontermination of unboundedly recursive source programs. -/
def fuelMsg : String := "превышена глубина рекурсии (модель)"

/-- The parameter-binding loop at the top of `evaluateFunction` (main.go
lines 331-340): per parameter position in order, back up any existing
variable of that name, then bind the argument through `setVariable` with a
flag computed fresh from the argument.  Returns the new variables map and
the backup map. -/
def bindLoop : VarMap → VarMap → List String → List FVal → VarMap × VarMap
  | vars, backup, [], _ => (vars, backup)
  | vars, backup, _ :: _, [] => (vars, backup)
  | vars, backup, pn :: ps, a :: rest =>
    let backup' := match lookupVar vars pn with
      | some orig => insertVar backup pn orig
      | none => backup
    let vars' := setVariable vars pn (isExactInt a) a
    bindLoop vars' backup' ps rest

/-- The restore loop at the bottom of `evaluateFunction` (main.go lines
350-357): per parameter name in order, delete the binding and re-insert the
backup when one was saved. -/
def restoreLoop : VarMap → VarMap → List String → VarMap
  | vars, _, [] => vars
  | vars, backup, pn :: ps =>
    let vars' := eraseVar vars pn
    let vars'' := match lookupVar backup pn with
      | some b => insertVar vars' pn b
      | none => vars'
    restoreLoop vars'' backup ps

mutual

/-- `parseExpression`: a term followed by the additive loop. -/
def parseExpressionF : Nat → FuncMap → EStore → PCtx → FVal × EStore × PCtx
  | 0, _, st, p => (FVal.zero, st, perror p fuelMsg)
  | fuel + 1, fns, st, p =>
    let (val, st, p) := parseTermF fuel fns st p
    exprLoopF fuel fns val st p

/-- The `+`/`-` loop of `parseExpression`. -/
def exprLoopF : Nat → FuncMap → FVal → EStore → PCtx → FVal × EStore × PCtx
  | 0, _, val, st, p =>
    if p.curr.typ = .plus ∨ p.curr.typ = .minus then (val, st, perror p fuelMsg)
    else (val, st, p)
  | fuel + 1, fns, val, st, p =>
    if p.curr.typ = .plus ∨ p.curr.typ = .minus then
      let op := p.curr.typ
      let p := pnext p
      let (right, st, p) := parseTermF fuel fns st p
      exprLoopF fuel fns (if op = .plus then fadd val right else fsub val right) st p
    else (val, st, p)

/-- `parseTerm`: a factor followed by the multiplicative loop. -/
def parseTermF : Nat → FuncMap → EStore → PCtx → FVal × EStore × PCtx
  | 0, _, st, p => (FVal.zero, st, perror p fuelMsg)
  | fuel + 1, fns, st, p =>
    let (val, st, p) := parseFactorF fuel fns st p
    termLoopF fuel fns val st p

/-- The `*`/`/` loop of `parseTerm`, with the explicit divisor-zero branch
`val / 0.0` of the source. -/
def termLoopF : Nat → FuncMap → FVal → EStore → PCtx → FVal × EStore × PCtx
  | 0, _, val, st, p =>
    if p.curr.typ = .star ∨ p.curr.typ = .slash then (val, st, perror p fuelMsg)
    else (val, st, p)
  | fuel + 1, fns, val, st, p =>
    if p.curr.typ = .star ∨ p.curr.typ = .slash then
      let op := p.curr.typ
      let p := pnext p
      let (right, st, p) := parseFactorF fuel fns st p
      let val :=
        if op = .star then fmul val right
        else if feqZero right then fdivByZero val
        else fdiv val right
      termLoopF fuel fns val st p
    else (val, st, p)

/-- `parseFactor` (main.go lines 247-324). -/
def parseFactorF : Nat → FuncMap → EStore → PCtx → FVal × EStore × PCtx
  | 0, _, st, p => (FVal.zero, st, perror p fuelMsg)
  | fuel + 1, fns, st, p =>
    if p.curr.typ = .number then
      match parseNumberQ p.curr.value with
      | none => (FVal.zero, st, perror p ("Невозможно преобразовать число: " ++ p.curr.value))
      | some q => (FVal.finite q, st, pnext p)
    else if p.curr.typ = .ident then
      let identName := p.curr.value
      let p := pnext p
      if p.curr.typ = .lparen then
        let p := pnext p
        let (args, st, p) :=
          if p.curr.typ ≠ .rparen then parseArgsF fuel fns [] st p
          else ([], st, p)
        if p.curr.typ ≠ .rparen then
          (FVal.zero, st, perror p ("Ожидалась закрывающая скобка в вызове функции"))
        else
          let p := pnext p
          match lookupFn fns identName with
          | none => (FVal.zero, { st with out := st.out ++ [undeclFnMsg identName] }, p)
          | some fn =>
            if fn.params.length ≠ args.length then
              (FVal.zero, st, perror p (arityMsg identName fn.params.length args.length))
            else
              let (v, st) := evaluateFunctionF fuel fns st fn args
              (v, st, p)
      else
        match lookupVar st.vars identName with
        | none => (FVal.zero, { st with out := st.out ++ [undeclVarMsg identName] }, p)
        | some v => (v.value, st, p)
    else if p.curr.typ = .lparen then
      let p := pnext p
      let (val, st, p) := parseExpressionF fuel fns st p
      if p.curr.typ ≠ .rparen then (val, st, perror p ("Ожидалась закрывающая скобка )"))
      else (val, st, pnext p)
    else
      (FVal.zero, st, perror p ("Неожиданный токен: " ++ p.curr.value))

/-- The argument-list loop inside `parseFactor`'s call branch. -/
def parseArgsF : Nat → FuncMap → List FVal → EStore → PCtx → List FVal × EStore × PCtx
  | 0, _, acc, st, p => (acc, st, perror p fuelMsg)
  | fuel + 1, fns, acc, st, p =>
    let (v, st, p) := parseExpressionF fuel fns st p
    let acc := acc ++ [v]
    if p.curr.typ = .comma then parseArgsF fuel fns acc st (pnext p)
    else (acc, st, p)

/-- `evaluateFunction` (main.go lines 329-360): bind parameters with
backup, evaluate the body text with a fresh parser (its error is printed
but not propagated to the outer parser), then delete/restore the parameter
names. -/
def evaluateFunctionF : Nat → FuncMap → EStore → Function → List FVal → FVal × EStore
  | 0, _, st, _, _ => (FVal.zero, st)
  | fuel + 1, fns, st, fn, args =>
    let (vars, backup) := bindLoop st.vars [] fn.params args
    let p0 := initParser fn.expression
    let (v, st1, p1) := parseExpressionF fuel fns { st with vars := vars } p0
    let st2 :=
      if p1.errMsg ≠ "" then
        { st1 with out := st1.out ++ ["ОШИБКА при вычислении функции: " ++ p1.errMsg] }
      else st1
    (v, { st2 with vars := restoreLoop st2.vars backup fn.params })

end

/-- `evaluateExpression` (main.go lines 363-371): run a fresh parser on the
text; on a sticky error report it and return `0` with `false`. -/
def evaluateExpression (fuel : Nat) (fns : FuncMap) (st : EStore) (expr : String) :
    FVal × EStore × Bool :=
  let p := initParser expr
  let (v, st, p) := parseExpressionF fuel fns st p
  if p.errMsg ≠ "" then
    (FVal.zero, { st with out := st.out ++ ["ОШИБКА при вычислении выражения: " ++ p.errMsg] }, false)
  else (v, st, true)

/-! ## Statement dispatcher -/

/-- Go `strings.TrimSpace` (ASCII whitespace). -/
def goTrimL (cs : List Char) : List Char :=
  ((cs.dropWhile goIsSpace).reverse.dropWhile goIsSpace).reverse

/-- The trailing-semicolon strip of `processLine`. -/
def stripSemi (cs : List Char) : List Char :=
  if cs.getLast? = some ';' then cs.dropLast else cs

/-- Go `strings.HasPrefix` on character lists (pattern first). -/
def hasPrefixL : List Char → List Char → Bool
  | [], _ => true
  | _ :: _, [] => false
  | p :: ps, c :: cs => p = c && hasPrefixL ps cs

/-- Go `strings.SplitN s sep 2` for a nonempty separator, reported as the
pieces before and after the first occurrence (`none` when the separator
does not occur, i.e. `strings.Contains` is false). -/
def splitFirst (pat : List Char) : List Char → Option (List Char × List Char)
  | [] => none
  | c :: cs =>
    if hasPrefixL pat (c :: cs) then some ([], (c :: cs).drop pat.length)
    else
      match splitFirst pat cs with
      | some (b, a) => some (c :: b, a)
      | none => none

/-- Go `strings.Index s string(c)`: position of the first occurrence. -/
def idxOf : List Char → Char → Option Nat
  | [], _ => none
  | d :: ds, c => if d = c then some 0 else (idxOf ds c).map (· + 1)

/-- Go `strings.Split` on a single-character separator. -/
def splitAll (sep : Char) : List Char → List (List Char)
  | [] => [[]]
  | c :: cs =>
    if c = sep then [] :: splitAll sep cs
    else
      match splitAll sep cs with
      | [] => [[c]]
      | h :: t => (c :: h) :: t

/-- Integer part of a value as printed by `%d` after `int64(v.value)`. -/
def fIntPart (v : FVal) : Int :=
  match ftrunc v with
  | .finite q => q.num
  | _ => 0

/-- Display of a float value; models `%g` up to number formatting. -/
def showF : FVal → String
  | .finite q => if q.den = 1 then toString q.num else toString q.num ++ "/" ++ toString q.den
  | .posInf => "+Inf"
  | .negInf => "-Inf"
  | .nan => "NaN"

/-- One line of `print` output for a variable. -/
def formatVarLine (n : String) (v : Variable) : String :=
  if v.isInt then n ++ " = " ++ toString (fIntPart v.value) ++ " (int)"
  else n ++ " = " ++ showF v.value ++ " (float)"

/-- Whole-interpreter state: the two Store maps and the output emitted so
far. -/
structure InterpSt where
  vars : VarMap
  funcs : FuncMap
  out : List String
  deriving DecidableEq, Repr

/-- Which dispatcher branch handled a line, with the name the handler bound
(instrumentation of the model; the source computes the same routing
through its if-chain). -/
inductive Branch where
  | empty
  | print
  | funcDef (name : Option String)
  | typedInit (name : Option String)
  | assign (name : String)
  | unparseable
  deriving DecidableEq, Repr

/-- The `print` statement handler (main.go lines 388-420). -/
def processPrint (st : InterpSt) (rest : List Char) : InterpSt :=
  if rest = [] then
    { st with out := st.out ++ ["== Список всех переменных =="] ++
        st.vars.map (fun p => formatVarLine p.1 p.2) }
  else
    let rest := if rest.head? = some '=' then goTrimL (rest.drop 1) else rest
    let varName := String.mk rest
    match lookupVar st.vars varName with
    | some v => { st with out := st.out ++ [formatVarLine varName v] }
    | none =>
      { st with out := st.out ++ ["ОШИБКА: переменная \"" ++ varName ++ "\" не объявлена"] }

/-- The function-definition handler (main.go lines 424-452). -/
def processFuncDef (st : InterpSt) (l left right : List Char) : InterpSt × Branch :=
  let leftT := goTrimL left
  let rightT := goTrimL right
  match idxOf leftT '(', idxOf leftT ')' with
  | some io, some ic =>
    if ic < io then
      ({ st with out := st.out ++
          ["ОШИБКА: неверный формат определения функции: " ++ String.mk l] }, .funcDef none)
    else
      let funcName := String.mk (goTrimL (leftT.take io))
      let paramsStr := goTrimL ((leftT.drop (io + 1)).take (ic - (io + 1)))
      let paramNames :=
        if paramsStr = [] then []
        else (splitAll ',' paramsStr).map (fun p => String.mk (goTrimL p))
      ({ st with funcs := insertFn st.funcs funcName ⟨paramNames, String.mk rightT⟩ },
        .funcDef (some funcName))
  | _, _ =>
    ({ st with out := st.out ++
        ["ОШИБКА: неверный формат определения функции: " ++ String.mk l] }, .funcDef none)

/-- The typed-initialization handler (main.go lines 456-482).  The
right-hand side is evaluated before the type tag is inspected, and the
statement is dropped when the evaluator reports an error. -/
def processTypedInit (fuel : Nat) (st : InterpSt) (l left right : List Char) :
    InterpSt × Branch :=
  let rightT := goTrimL right
  match idxOf left '(' with
  | none =>
    ({ st with out := st.out ++
        ["ОШИБКА: неверный формат при инициализации переменной: " ++ String.mk l] },
      .typedInit none)
  | some io =>
    let varName := String.mk (goTrimL (left.take io))
    let typeChar := String.mk (goTrimL (left.drop (io + 1)))
    let (val, est, ok) := evaluateExpression fuel st.funcs ⟨st.vars, st.out⟩ (String.mk rightT)
    if ok = false then
      ({ vars := est.vars, funcs := st.funcs, out := est.out }, .typedInit (some varName))
    else if typeChar = "i" then
      ({ vars := setVariable est.vars varName true val, funcs := st.funcs, out := est.out },
        .typedInit (some varName))
    else if typeChar = "f" then
      ({ vars := setVariable est.vars varName false val, funcs := st.funcs, out := est.out },
        .typedInit (some varName))
    else
      ({ vars := est.vars, funcs := st.funcs,
          out := est.out ++ ["ОШИБКА: неизвестный тип переменной: " ++ typeChar] },
        .typedInit (some varName))

/-- The plain-assignment handler (main.go lines 486-510).  An existing
variable keeps its flag and coerces the value; a new one infers the flag
from the value. -/
def processAssign (fuel : Nat) (st : InterpSt) (left right : List Char) : InterpSt × Branch :=
  let varName := String.mk (goTrimL left)
  let expr := String.mk (goTrimL right)
  let (val, est, ok) := evaluateExpression fuel st.funcs ⟨st.vars, st.out⟩ expr
  if ok = false then
    ({ vars := est.vars, funcs := st.funcs, out := est.out }, .assign varName)
  else
    match lookupVar est.vars varName with
    | some v =>
      ({ vars := insertVar est.vars varName ⟨v.isInt, if v.isInt then ftrunc val else val⟩,
          funcs := st.funcs, out := est.out }, .assign varName)
    | none =>
      ({ vars := setVariable est.vars varName (isExactInt val) val,
          funcs := st.funcs, out := est.out }, .assign varName)

/-- The dispatcher's priority chain on the preprocessed line (main.go
lines 388-513): `print` prefix, then `:`, then `)=`, then `=`. -/
def processStmt (fuel : Nat) (st : InterpSt) (l : List Char) : InterpSt × Branch :=
  if hasPrefixL "print".data l then (processPrint st (goTrimL (l.drop 5)), .print)
  else
    match splitFirst [':'] l with
    | some (left, right) => processFuncDef st l left right
    | none =>
      match splitFirst [')', '='] l with
      | some (left, right) => processTypedInit fuel st l left right
      | none =>
        match splitFirst ['='] l with
        | some (left, right) => processAssign fuel st left right
        | none =>
          ({ st with out := st.out ++
              ["ОШИБКА: не могу разобрать инструкцию: " ++ String.mk l] }, .unparseable)

/-- `processLine` (main.go lines 375-514): trim, drop an empty line, strip
one trailing `;`, re-trim, dispatch. -/
def processLine (fuel : Nat) (st : InterpSt) (line : String) : InterpSt × Branch :=
  if goTrimL line.data = [] then (st, .empty)
  else processStmt fuel st (goTrimL (stripSemi (goTrimL line.data)))

/-- The main loop: feed the lines to `processLine` in order. -/
def runLines (fuel : Nat) (st : InterpSt) : List String → InterpSt
  | [] => st
  | line :: rest => runLines fuel (processLine fuel st line).1 rest

/-- The empty initial store. -/
def initSt : InterpSt := ⟨[], [], []⟩

/-! ## Map lemmas -/

theorem lookup_insertVar (m : VarMap) (name : String) (x : Variable) (k : String) :
    lookupVar (insertVar m name x) k = if name = k then some x else lookupVar m k := by
  induction m with
  | nil => by_cases h : name = k <;> simp [insertVar, lookupVar, h]
  | cons hd tl ih =>
    obtain ⟨hk, hv⟩ := hd
    by_cases h1 : hk = name
    · subst h1
      by_cases h2 : hk = k <;> simp [insertVar, lookupVar, h2]
    · by_cases h2 : hk = k
      · subst h2
        have : ¬ name = hk := fun h => h1 h.symm
        simp [insertVar, lookupVar, h1, this]
      · simp [insertVar, lookupVar, h1, h2, ih]

theorem lookup_eraseVar (m : VarMap) (name : String) (k : String) :
    lookupVar (eraseVar m name) k = if name = k then none else lookupVar m k := by
  induction m with
  | nil => by_cases h : name = k <;> simp [eraseVar, lookupVar, h]
  | cons hd tl ih =>
    obtain ⟨hk, hv⟩ := hd
    by_cases h1 : hk = name
    · subst h1
      by_cases h2 : hk = k
      · subst h2
        simp [eraseVar, lookupVar] at ih ⊢
        simpa using ih
      · simp [eraseVar, lookupVar, h2] at ih ⊢
        simpa [h2] using ih
    · by_cases h2 : hk = k
      · subst h2
        have : ¬ name = hk := fun h => h1 h.symm
        simp [eraseVar, lookupVar, h1, this]
      · simp [eraseVar, lookupVar, h1, h2] at ih ⊢
        simpa [h2] using ih

theorem lookup_setVariable_ne (m : VarMap) (name : String) (b : Bool) (v : FVal)
    (k : String) (h : name ≠ k) :
    lookupVar (setVariable m name b v) k = lookupVar m k := by
  unfold setVariable
  cases hl : lookupVar m name <;> simp [lookup_insertVar, h]

theorem lookup_setVariable_self (m : VarMap) (name : String) (b : Bool) (v : FVal) :
    lookupVar (setVariable m name b v) name =
      some (match lookupVar m name with
            | some w => ⟨w.isInt, if w.isInt then ftrunc v else v⟩
            | none => ⟨b, if b then ftrunc v else v⟩) := by
  unfold setVariable
  cases hl : lookupVar m name <;> simp [lookup_insertVar]

/-! ## Bind/restore loop lemmas -/

theorem rl_not_mem (ps : List String) (backup vars : VarMap) (k : String) (h : k ∉ ps) :
    lookupVar (restoreLoop vars backup ps) k = lookupVar vars k := by
  induction ps generalizing vars with
  | nil => rfl
  | cons pn ps ih =>
    have hne : pn ≠ k := fun e => h (e ▸ List.mem_cons_self pn ps)
    have hk : k ∉ ps := fun e => h (List.mem_cons_of_mem pn e)
    cases hb : lookupVar backup pn <;>
      simp [restoreLoop, hb, ih _ hk, lookup_insertVar, lookup_eraseVar, hne]

theorem rl_mem (ps : List String) (backup vars : VarMap) (k : String) (h : k ∈ ps) :
    lookupVar (restoreLoop vars backup ps) k = lookupVar backup k := by
  induction ps generalizing vars with
  | nil => exact absurd h (List.not_mem_nil k)
  | cons pn ps ih =>
    by_cases hm : k ∈ ps
    · cases hb : lookupVar backup pn <;> simp [restoreLoop, hb, ih _ hm]
    · have hk : k = pn := by
        rcases List.mem_cons.mp h with h1 | h1
        · exact h1
        · exact absurd h1 hm
      subst hk
      cases hb : lookupVar backup k <;>
        simp [restoreLoop, hb, rl_not_mem _ _ _ _ hm, lookup_insertVar, lookup_eraseVar]

theorem bl_vars_not_mem (ps : List String) (args : List FVal) (vars backup : VarMap)
    (k : String) (h : k ∉ ps) :
    lookupVar (bindLoop vars backup ps args).1 k = lookupVar vars k := by
  induction ps generalizing args vars backup with
  | nil => rfl
  | cons pn ps ih =>
    cases args with
    | nil => rfl
    | cons a rest =>
      have hne : pn ≠ k := fun e => h (e ▸ List.mem_cons_self pn ps)
      have hk : k ∉ ps := fun e => h (List.mem_cons_of_mem pn e)
      cases hl : lookupVar vars pn <;>
        simp [bindLoop, hl, ih _ _ _ hk, lookup_setVariable_ne _ _ _ _ _ hne]

theorem bl_backup_not_mem (ps : List String) (args : List FVal) (vars backup : VarMap)
    (k : String) (h : k ∉ ps) :
    lookupVar (bindLoop vars backup ps args).2 k = lookupVar backup k := by
  induction ps generalizing args vars backup with
  | nil => rfl
  | cons pn ps ih =>
    cases args with
    | nil => rfl
    | cons a rest =>
      have hne : pn ≠ k := fun e => h (e ▸ List.mem_cons_self pn ps)
      have hk : k ∉ ps := fun e => h (List.mem_cons_of_mem pn e)
      cases hl : lookupVar vars pn <;>
        simp [bindLoop, hl, ih _ _ _ hk, lookup_insertVar, hne]

theorem bl_backup_mem (ps : List String) (args : List FVal) (vars backup : VarMap)
    (k : String) (hnd : ps.Nodup) (h : k ∈ ps) (hlen : ps.length ≤ args.length) :
    lookupVar (bindLoop vars backup ps args).2 k =
      (match lookupVar vars k with
       | some v => some v
       | none => lookupVar backup k) := by
  induction ps generalizing args vars backup with
  | nil => exact absurd h (List.not_mem_nil k)
  | cons pn ps ih =>
    cases args with
    | nil => simp at hlen
    | cons a rest =>
      have hnd' : ps.Nodup := (List.nodup_cons.mp hnd).2
      have hlen' : ps.length ≤ rest.length := by simpa using hlen
      by_cases hm : k ∈ ps
      · have hne : pn ≠ k := fun e => (List.nodup_cons.mp hnd).1 (e ▸ hm)
        cases hl : lookupVar vars pn <;>
          simp [bindLoop, hl, ih _ _ _ hnd' hm hlen', lookup_insertVar, hne,
            lookup_setVariable_ne _ _ _ _ _ hne]
      · have hk : k = pn := by
          rcases List.mem_cons.mp h with h1 | h1
          · exact h1
          · exact absurd h1 hm
        subst hk
        cases hl : lookupVar vars k <;>
          simp [bindLoop, hl, bl_backup_not_mem _ _ _ _ _ hm, lookup_insertVar]

/-! ## Claims C1, C2, C3 -/

/-- C1: the code's actual behaviour at the claim's failing input.  After
`x = 5;` the line `x(f)=2.5;` is routed to the typed-initialization
handler and its right-hand side evaluates without error, yet `x` keeps
`isInt = true` and stores the truncated value `2`: `setVariable` reuses the
existing flag even for a typed initialization, so the claimed forcing of
the type never happens. -/
theorem claim1_code_behavior :
    lookupVar (runLines 100 initSt ["x = 5;", "x(f)=2.5;"]).vars "x" =
      some ⟨true, FVal.finite ⟨2, 1⟩⟩ ∧
    (runLines 100 initSt ["x = 5;", "x(f)=2.5;"]).out = [] ∧
    (processLine 100 (runLines 100 initSt ["x = 5;"]) "x(f)=2.5;").2 =
      Branch.typedInit (some "x") := by
  decide

/-- C2, counterexample: binding parameter `x` (argument `2.5`, not an
exact integer) while a variable `x` with `isInt = true` exists yields a
temporary with the OLD flag and a truncated value, not a fresh flag with
the untruncated value; observable end to end through `y = f(2.5)` with
`f(x): x`, which assigns `2`, not `2.5`. -/
theorem claim2_counterexample :
    lookupVar (bindLoop [("x", ⟨true, FVal.finite ⟨5, 1⟩⟩)] [] ["x"] [FVal.finite ⟨5, 2⟩]).1 "x" =
      some ⟨true, FVal.finite ⟨2, 1⟩⟩ ∧
    ¬ lookupVar (bindLoop [("x", ⟨true, FVal.finite ⟨5, 1⟩⟩)] [] ["x"] [FVal.finite ⟨5, 2⟩]).1 "x" =
      some ⟨false, FVal.finite ⟨5, 2⟩⟩ ∧
    isExactInt (FVal.finite ⟨5, 2⟩) = false ∧
    lookupVar (runLines 100 initSt ["x = 5;", "f(x): x", "y = f(2.5);"]).vars "y" =
      some ⟨true, FVal.finite ⟨2, 1⟩⟩ := by
  decide

/-- C2, amended: binding one parameter position derives the temporary's
`isInt` flag fresh from the argument only when no variable of that name is
currently in the Store; an existing variable keeps its flag and the
argument is coerced to it (truncated when the flag is int). -/
theorem claim2_param_binding (vars backup : VarMap) (name : String) (a : FVal) :
    lookupVar (bindLoop vars backup [name] [a]).1 name =
      some (match lookupVar vars name with
            | some v => ⟨v.isInt, if v.isInt then ftrunc a else a⟩
            | none => ⟨isExactInt a, if isExactInt a then ftrunc a else a⟩) := by
  cases h : lookupVar vars name <;>
    simp [bindLoop, h, lookup_setVariable_self]

/-- C3, counterexample: with a duplicate parameter name the save/restore
dance leaks: `gx(p, p): 0` has params `["p", "p"]`, no variable `p` exists
before the call in `y = gx(1, 2);`, yet after the call `p` is present
(bound to the first argument's temporary). -/
theorem claim3_counterexample :
    lookupFn (runLines 100 initSt ["gx(p, p): 0"]).funcs "gx" =
      some ⟨["p", "p"], "0"⟩ ∧
    lookupVar (runLines 100 initSt ["gx(p, p): 0"]).vars "p" = none ∧
    lookupVar (runLines 100 initSt ["gx(p, p): 0", "y = gx(1, 2);"]).vars "p" =
      some ⟨true, FVal.finite ⟨1, 1⟩⟩ := by
  decide

/-- C3, amended: for a call of a function whose parameter names are
pairwise distinct (and with the argument list at least as long as the
parameter list, which the arity check guarantees at every call site),
every parameter name maps to exactly what it mapped to before the call —
absent stays absent, present is restored verbatim — regardless of what the
body evaluation did and whether it reported errors. -/
theorem claim3_param_restore (fuel : Nat) (fns : FuncMap) (st : EStore) (fn : Function)
    (args : List FVal) (name : String) (hnd : fn.params.Nodup) (hmem : name ∈ fn.params)
    (hlen : fn.params.length ≤ args.length) :
    lookupVar (evaluateFunctionF fuel fns st fn args).2.vars name = lookupVar st.vars name := by
  cases fuel with
  | zero => rfl
  | succ k =>
    rcases hbl : bindLoop st.vars [] fn.params args with ⟨vars1, backup⟩
    rcases hpe : parseExpressionF k fns { st with vars := vars1 } (initParser fn.expression)
      with ⟨v, st1, p1⟩
    have hbk : lookupVar backup name = lookupVar st.vars name := by
      have h2 := bl_backup_mem fn.params args st.vars [] name hnd hmem hlen
      rw [hbl] at h2
      cases hv : lookupVar st.vars name <;> simp [hv, lookupVar] at h2 <;> simp [h2]
    simp only [evaluateFunctionF, hbl, hpe]
    split <;> · rw [rl_mem _ _ _ _ hmem, hbk]

/-- C3, witness: calling `⟨["a"], "a"⟩` with one argument while `a`
already exists as a float variable leaves `a` exactly as before. -/
theorem claim3_param_restore_witness :
    lookupVar (evaluateFunctionF 20 []
        ⟨[("a", ⟨false, FVal.finite ⟨7, 2⟩⟩)], []⟩ ⟨["a"], "a"⟩
        [FVal.finite ⟨1, 1⟩]).2.vars "a" =
      lookupVar [("a", ⟨false, FVal.finite ⟨7, 2⟩⟩)] "a" :=
  claim3_param_restore 20 [] ⟨[("a", ⟨false, FVal.finite ⟨7, 2⟩⟩)], []⟩ ⟨["a"], "a"⟩
    [FVal.finite ⟨1, 1⟩] "a" (by decide) (by decide) (by decide)

/-! ## Claims C4, C5 -/

theorem ftrunc_of_isExactInt (v : FVal) (h : isExactInt v = true) : ftrunc v = v := by
  cases v with
  | nan => simp [isExactInt] at h
  | finite q => simpa [isExactInt] using h
  | posInf => simpa [isExactInt] using h
  | negInf => simpa [isExactInt] using h

/-- C4: a plain assignment whose right-hand side evaluates without error
keeps an existing variable's `isInt` flag and coerces the value to it
(truncating toward zero for int), and creates a missing variable with the
flag inferred from the value being an exact integer and with the value
itself.  Existence is tested on the Store as the evaluation left it, which
is the state the source's `getVariable` sees. -/
theorem claim4_assign (fuel : Nat) (st : InterpSt) (left right : List Char) (val : FVal)
    (est : EStore)
    (hev : evaluateExpression fuel st.funcs ⟨st.vars, st.out⟩ (String.mk (goTrimL right)) =
      (val, est, true)) :
    (∀ v, lookupVar est.vars (String.mk (goTrimL left)) = some v →
      lookupVar (processAssign fuel st left right).1.vars (String.mk (goTrimL left)) =
        some ⟨v.isInt, if v.isInt then ftrunc val else val⟩) ∧
    (lookupVar est.vars (String.mk (goTrimL left)) = none →
      lookupVar (processAssign fuel st left right).1.vars (String.mk (goTrimL left)) =
        some ⟨isExactInt val, val⟩) := by
  constructor
  · intro v hv
    simp only [processAssign, hev, hv]
    simp [lookup_insertVar]
  · intro hv
    simp only [processAssign, hev, hv]
    rw [if_neg (by decide)]
    rw [lookup_setVariable_self, hv]
    by_cases hint : isExactInt val = true
    · simp [hint, ftrunc_of_isExactInt val hint]
    · simp only [Bool.not_eq_true] at hint
      simp [hint]

/-- C4, witness: assigning `2.5` to existing int `x` stores the truncated
`2` under the unchanged int flag; assigning `2.5` to a fresh `y` creates a
float holding `5/2`. -/
theorem claim4_assign_witness :
    lookupVar (processAssign 100 ⟨[("x", ⟨true, FVal.finite ⟨7, 1⟩⟩)], [], []⟩
        "x".data "2.5".data).1.vars (String.mk (goTrimL "x".data)) =
      some ⟨true, if true then ftrunc (FVal.finite ⟨5, 2⟩) else FVal.finite ⟨5, 2⟩⟩ ∧
    lookupVar (processAssign 100 ⟨[], [], []⟩ "y".data "2.5".data).1.vars
        (String.mk (goTrimL "y".data)) =
      some ⟨isExactInt (FVal.finite ⟨5, 2⟩), FVal.finite ⟨5, 2⟩⟩ :=
  ⟨(claim4_assign 100 ⟨[("x", ⟨true, FVal.finite ⟨7, 1⟩⟩)], [], []⟩ "x".data "2.5".data
      (FVal.finite ⟨5, 2⟩) ⟨[("x", ⟨true, FVal.finite ⟨7, 1⟩⟩)], []⟩ (by decide)).1
      ⟨true, FVal.finite ⟨7, 1⟩⟩ (by decide),
   (claim4_assign 100 ⟨[], [], []⟩ "y".data "2.5".data
      (FVal.finite ⟨5, 2⟩) ⟨[], []⟩ (by decide)).2 (by decide)⟩

/-- C5: in `parseFactor`, a bare identifier missing from the variables map
emits the "undeclared variable" diagnostic and yields `0` with the parser
context advanced but otherwise untouched (the sticky error message is
whatever it already was); a call whose function name is missing emits the
"undeclared function" diagnostic and yields `0`, again leaving the error
message as the argument parsing left it; and a call whose argument count
differs from the declared parameter count yields `0` and sets the sticky
error to the arity message. -/
theorem claim5_undeclared_and_arity (fuel : Nat) (fns : FuncMap) (st : EStore) (p : PCtx)
    (name : String) (hcur : p.curr = ⟨.ident, name⟩) :
    ((pnext p).curr.typ ≠ .lparen → lookupVar st.vars name = none →
      parseFactorF (fuel + 1) fns st p =
        (FVal.zero, { st with out := st.out ++ [undeclVarMsg name] }, pnext p)) ∧
    (∀ args st' p', (pnext p).curr.typ = .lparen →
      (if (pnext (pnext p)).curr.typ ≠ .rparen
       then parseArgsF fuel fns [] st (pnext (pnext p))
       else ([], st, pnext (pnext p))) = (args, st', p') →
      p'.curr.typ = .rparen →
      (lookupFn fns name = none →
        parseFactorF (fuel + 1) fns st p =
          (FVal.zero, { st' with out := st'.out ++ [undeclFnMsg name] }, pnext p')) ∧
      (∀ fn, lookupFn fns name = some fn → fn.params.length ≠ args.length →
        parseFactorF (fuel + 1) fns st p =
          (FVal.zero, st', perror (pnext p') (arityMsg name fn.params.length args.length)))) := by
  constructor
  · intro hnp hvar
    simp [parseFactorF, hcur, hnp, hvar]
  · intro args st' p' hlp hargs hrp
    constructor
    · intro hfn
      simp [parseFactorF, hcur, hlp, hargs, hrp, hfn]
    · intro fn hfn hlen
      simp [parseFactorF, hcur, hlp, hargs, hrp, hfn, hlen]

/-! ## Claim C6: the sticky error flag -/

theorem str_ne_empty_of_data (s : String) (h : s.data ≠ []) : s ≠ "" := by
  intro he
  subst he
  exact h rfl

theorem strAppend_ne (s t : String) (h : s.data ≠ []) : s ++ t ≠ "" := by
  apply str_ne_empty_of_data
  show (s.data ++ t.data) ≠ []
  simp [h]

theorem fuelMsg_ne : fuelMsg ≠ "" := by decide

theorem numMsg_ne (v : String) : "Невозможно преобразовать число: " ++ v ≠ "" :=
  strAppend_ne _ _ (by decide)

theorem tokMsg_ne (v : String) : "Неожиданный токен: " ++ v ≠ "" :=
  strAppend_ne _ _ (by decide)

theorem arityMsg_ne (n : String) (a b : Nat) : arityMsg n a b ≠ "" := by
  apply str_ne_empty_of_data
  show ("Функция ".data ++ n.data ++ " ожидала ".data ++ (toString a).data ++
    " аргументов, передано ".data ++ (toString b).data) ≠ []
  simp

theorem pnext_errMsg (p : PCtx) : (pnext p).errMsg = p.errMsg := by
  rcases h : nextToken p.rest with ⟨t, r⟩
  simp [pnext, h]

/-- Once the error message is nonempty, no further step of the same
evaluation clears it (it may still be overwritten with a different
nonempty message). -/
theorem errMono (fuel : Nat) :
    (∀ fns st p, p.errMsg ≠ "" → (parseExpressionF fuel fns st p).2.2.errMsg ≠ "") ∧
    (∀ fns v st p, p.errMsg ≠ "" → (exprLoopF fuel fns v st p).2.2.errMsg ≠ "") ∧
    (∀ fns st p, p.errMsg ≠ "" → (parseTermF fuel fns st p).2.2.errMsg ≠ "") ∧
    (∀ fns v st p, p.errMsg ≠ "" → (termLoopF fuel fns v st p).2.2.errMsg ≠ "") ∧
    (∀ fns st p, p.errMsg ≠ "" → (parseFactorF fuel fns st p).2.2.errMsg ≠ "") ∧
    (∀ fns acc st p, p.errMsg ≠ "" → (parseArgsF fuel fns acc st p).2.2.errMsg ≠ "") := by
  induction fuel with
  | zero =>
    refine ⟨?_, ?_, ?_, ?_, ?_, ?_⟩
    · intro fns st p h; exact fuelMsg_ne
    · intro fns v st p h
      by_cases hc : p.curr.typ = .plus ∨ p.curr.typ = .minus
      · simp only [exprLoopF, if_pos hc]; exact fuelMsg_ne
      · simp only [exprLoopF, if_neg hc]; exact h
    · intro fns st p h; exact fuelMsg_ne
    · intro fns v st p h
      by_cases hc : p.curr.typ = .star ∨ p.curr.typ = .slash
      · simp only [termLoopF, if_pos hc]; exact fuelMsg_ne
      · simp only [termLoopF, if_neg hc]; exact h
    · intro fns st p h; exact fuelMsg_ne
    · intro fns acc st p h; exact fuelMsg_ne
  | succ k ih =>
    obtain ⟨ihE, ihEL, ihT, ihTL, ihF, ihA⟩ := ih
    refine ⟨?_, ?_, ?_, ?_, ?_, ?_⟩
    · intro fns st p h
      rcases ht : parseTermF k fns st p with ⟨v, s1, p1⟩
      have h1 : p1.errMsg ≠ "" := by
        have h2 := ihT fns st p h; rw [ht] at h2; exact h2
      simpa [parseExpressionF, ht] using ihEL fns v s1 p1 h1
    · intro fns v st p h
      by_cases hc : p.curr.typ = .plus ∨ p.curr.typ = .minus
      · rcases ht : parseTermF k fns st (pnext p) with ⟨r, s1, p1⟩
        have hp : (pnext p).errMsg ≠ "" := by rw [pnext_errMsg]; exact h
        have h1 : p1.errMsg ≠ "" := by
          have h2 := ihT fns st (pnext p) hp; rw [ht] at h2; exact h2
        simpa [exprLoopF, if_pos hc, ht] using
          ihEL fns (if p.curr.typ = .plus then fadd v r else fsub v r) s1 p1 h1
      · simp only [exprLoopF, if_neg hc]; exact h
    · intro fns st p h
      rcases hf : parseFactorF k fns st p with ⟨v, s1, p1⟩
      have h1 : p1.errMsg ≠ "" := by
        have h2 := ihF fns st p h; rw [hf] at h2; exact h2
      simpa [parseTermF, hf] using ihTL fns v s1 p1 h1
    · intro fns v st p h
      by_cases hc : p.curr.typ = .star ∨ p.curr.typ = .slash
      · rcases hf : parseFactorF k fns st (pnext p) with ⟨r, s1, p1⟩
        have hp : (pnext p).errMsg ≠ "" := by rw [pnext_errMsg]; exact h
        have h1 : p1.errMsg ≠ "" := by
          have h2 := ihF fns st (pnext p) hp; rw [hf] at h2; exact h2
        simpa [termLoopF, if_pos hc, hf] using
          ihTL fns (if p.curr.typ = .star then fmul v r
            else if feqZero r then fdivByZero v else fdiv v r) s1 p1 h1
      · simp only [termLoopF, if_neg hc]; exact h
    · intro fns st p h
      by_cases hn : p.curr.typ = .number
      · rcases hq : parseNumberQ p.curr.value with _ | q
        · simp only [parseFactorF, if_pos hn, hq]
          exact numMsg_ne _
        · simp only [parseFactorF, if_pos hn, hq]
          rw [pnext_errMsg]; exact h
      · by_cases hi : p.curr.typ = .ident
        · by_cases hlp : (pnext p).curr.typ = .lparen
          · rcases hargs : (if (pnext (pnext p)).curr.typ ≠ .rparen
                then parseArgsF k fns [] st (pnext (pnext p))
                else ([], st, pnext (pnext p))) with ⟨args, s1, p1⟩
            have h1 : p1.errMsg ≠ "" := by
              split at hargs
              · have hp : (pnext (pnext p)).errMsg ≠ "" := by
                  rw [pnext_errMsg, pnext_errMsg]; exact h
                have h2 := ihA fns [] st (pnext (pnext p)) hp
                rw [hargs] at h2; exact h2
              · have hp : (pnext (pnext p)).errMsg ≠ "" := by
                  rw [pnext_errMsg, pnext_errMsg]; exact h
                rw [show p1 = pnext (pnext p) from congrArg (fun x => x.2.2) hargs.symm]
                exact hp
            by_cases hr1 : p1.curr.typ = .rparen
            · have hr2 : ¬ (p1.curr.typ ≠ TokenType.rparen) := by simp [hr1]
              rcases hfn : lookupFn fns p.curr.value with _ | fn
              · simp only [parseFactorF, if_neg hn, if_pos hi, if_pos hlp, hargs, hfn,
                  if_neg hr2]
                rw [pnext_errMsg]; exact h1
              · by_cases hlen : fn.params.length ≠ args.length
                · simp only [parseFactorF, if_neg hn, if_pos hi, if_pos hlp, hargs, hfn,
                    if_neg hr2, if_pos hlen]
                  exact arityMsg_ne _ _ _
                · rcases hev : evaluateFunctionF k fns s1 fn args with ⟨v, s2⟩
                  simp only [parseFactorF, if_neg hn, if_pos hi, if_pos hlp, hargs, hfn,
                    if_neg hr2, if_neg hlen, hev]
                  rw [pnext_errMsg]; exact h1
            · simp only [parseFactorF, if_neg hn, if_pos hi, if_pos hlp, hargs,
                if_pos hr1]
              exact str_ne_empty_of_data ("Ожидалась закрывающая скобка в вызове функции")
                (by decide)
          · rcases hv : lookupVar st.vars p.curr.value with _ | v
            · simp only [parseFactorF, if_neg hn, if_pos hi, if_neg hlp, hv]
              rw [pnext_errMsg]; exact h
            · simp only [parseFactorF, if_neg hn, if_pos hi, if_neg hlp, hv]
              rw [pnext_errMsg]; exact h
        · by_cases hl : p.curr.typ = .lparen
          · rcases he : parseExpressionF k fns st (pnext p) with ⟨v, s1, p1⟩
            have hp : (pnext p).errMsg ≠ "" := by rw [pnext_errMsg]; exact h
            have h1 : p1.errMsg ≠ "" := by
              have h2 := ihE fns st (pnext p) hp; rw [he] at h2; exact h2
            by_cases hr1 : p1.curr.typ = .rparen
            · have hr2 : ¬ (p1.curr.typ ≠ TokenType.rparen) := by simp [hr1]
              simp only [parseFactorF, if_neg hn, if_neg hi, if_pos hl, he, if_neg hr2]
              rw [pnext_errMsg]; exact h1
            · simp only [parseFactorF, if_neg hn, if_neg hi, if_pos hl, he, if_pos hr1]
              exact str_ne_empty_of_data ("Ожидалась закрывающая скобка )") (by decide)
          · simp only [parseFactorF, if_neg hn, if_neg hi, if_neg hl]
            exact tokMsg_ne _
    · intro fns acc st p h
      rcases he : parseExpressionF k fns st p with ⟨v, s1, p1⟩
      have h1 : p1.errMsg ≠ "" := by
        have h2 := ihE fns st p h; rw [he] at h2; exact h2
      by_cases hc : p1.curr.typ = .comma
      · have hp : (pnext p1).errMsg ≠ "" := by rw [pnext_errMsg]; exact h1
        simpa [parseArgsF, he, hc] using ihA fns (acc ++ [v]) s1 (pnext p1) hp
      · simp only [parseArgsF, he]
        simp only [if_neg hc]
        exact h1

/-- C6, counterexample: in the single evaluation of `"* ,"`, the first
sub-evaluation (the factor at the leading `*`) records the message
"Неожиданный токен: *", but a later sub-evaluation overwrites it —
`Parser.error` assigns unconditionally — and the caller observes the
message for `,`, not the first error. -/
theorem claim6_counterexample :
    (parseFactorF 9 [] ⟨[], []⟩ (initParser "* ,")).2.2.errMsg = "Неожиданный токен: *" ∧
    (parseExpressionF 10 [] ⟨[], []⟩ (initParser "* ,")).2.2.errMsg = "Неожиданный токен: ," ∧
    (evaluateExpression 10 [] ⟨[], []⟩ "* ,").2.1.out =
      ["ОШИБКА при вычислении выражения: Неожиданный токен: ,"] := by
  decide

/-- C6, amended: the error flag (message nonempty) is sticky in the sense
that once set it is never cleared by later sub-evaluations of the same
top-level expression — the caller always still observes an error — but the
message itself may be overwritten, so the caller sees the last recorded
error, not the first. -/
theorem claim6_error_flag_monotone (fuel : Nat) (fns : FuncMap) (st : EStore) (p : PCtx)
    (h : p.errMsg ≠ "") : (parseExpressionF fuel fns st p).2.2.errMsg ≠ "" :=
  (errMono fuel).1 fns st p h

/-- C6, witness: a context whose error message is already `"x"` still has
a nonempty message after a further evaluation step. -/
theorem claim6_error_flag_monotone_witness :
    (parseExpressionF 5 [] ⟨[], []⟩ ⟨[], ⟨.eof, ""⟩, "x"⟩).2.2.errMsg ≠ "" :=
  claim6_error_flag_monotone 5 [] ⟨[], []⟩ ⟨[], ⟨.eof, ""⟩, "x"⟩ (by decide)

/-! ## Claims C8, C9 -/

/-- C8, counterexample: `-1 / 0` is NOT evaluated with the error flag
unset: the grammar has no unary minus, so the leading `-` is an unexpected
token, the sticky flag is set, and the caller receives `0`, not negative
infinity. -/
theorem claim8_counterexample :
    (evaluateExpression 20 [] ⟨[], []⟩ "-1 / 0").2.2 = false ∧
    (evaluateExpression 20 [] ⟨[], []⟩ "-1 / 0").1 = FVal.zero ∧
    (evaluateExpression 20 [] ⟨[], []⟩ "-1 / 0").2.1.out =
      ["ОШИБКА при вычислении выражения: Неожиданный токен: -"] := by
  decide

/-- C8, amended: the division step itself never raises a parse error: a
zero divisor routes through `val / 0.0`, giving positive infinity for a
positive dividend, negative infinity for a negative one and NaN for `0/0`;
`1 / 0` and `0 / 0` evaluate with the flag unset.  `-1 / 0` still computes
the value negative infinity inside the parser (as `0 - 1/0`), but the
leading `-` is an unexpected token, so that evaluation ends with the flag
set and the caller sees `0`. -/
theorem claim8_division_by_zero :
    (∀ q : ExactQ, 0 < q.num → fdivByZero (FVal.finite q) = FVal.posInf) ∧
    (∀ q : ExactQ, q.num < 0 → fdivByZero (FVal.finite q) = FVal.negInf) ∧
    fdivByZero FVal.zero = FVal.nan ∧
    evaluateExpression 20 [] ⟨[], []⟩ "1 / 0" = (FVal.posInf, ⟨[], []⟩, true) ∧
    evaluateExpression 20 [] ⟨[], []⟩ "0 / 0" = (FVal.nan, ⟨[], []⟩, true) ∧
    (parseExpressionF 20 [] ⟨[], []⟩ (initParser "-1 / 0")).1 = FVal.negInf ∧
    (evaluateExpression 20 [] ⟨[], []⟩ "-1 / 0").2.2 = false := by
  refine ⟨?_, ?_, by decide, by decide, by decide, by decide, by decide⟩
  · intro q h
    have h0 : ¬ q.num = 0 := by omega
    have h1 : ¬ q.num < 0 := by omega
    simp [fdivByZero, h0, h1]
  · intro q h
    have h0 : ¬ q.num = 0 := by omega
    simp [fdivByZero, h0, h]

/-- C8, witness: the sign cases of division by zero at `1` and `-1`. -/
theorem claim8_division_by_zero_witness :
    fdivByZero (FVal.finite ⟨1, 1⟩) = FVal.posInf ∧
    fdivByZero (FVal.finite ⟨-1, 1⟩) = FVal.negInf :=
  ⟨claim8_division_by_zero.1 ⟨1, 1⟩ (by decide),
   claim8_division_by_zero.2.1 ⟨-1, 1⟩ (by decide)⟩

/-- C9, counterexample: the expression `"1 @"` contains the unrecognized
character `@`, yet the evaluation ends with value `1` and the sticky error
flag UNSET: the parser stopped consuming before the error token was ever
inspected, so no parse error results. -/
theorem claim9_counterexample :
    goIsSpace '@' = false ∧ goIsDigit '@' = false ∧ goIsLetter '@' = false ∧
    '@' ∉ (['+', '-', '*', '/', '(', ')', ',', '_'] : List Char) ∧
    evaluateExpression 20 [] ⟨[], []⟩ "1 @" = (FVal.finite ⟨1, 1⟩, ⟨[], []⟩, true) := by
  decide

/-- C9, amended: the tokenizer turns an unrecognized character (not
whitespace, operator, parenthesis, comma, digit, letter, underscore — and
not NUL, which reads as end of input) into an error token carrying that
character, and the parser raises "unexpected token" from an error token
only when it reaches a position where a factor is expected; trailing
input after a complete expression is never inspected, so an unrecognized
character there causes no parse error. -/
theorem claim9_lex_error_token (c : Char) (rest : List Char) (fuel : Nat) (fns : FuncMap)
    (st : EStore) (p : PCtx) (v : String)
    (hs : goIsSpace c = false) (hd : goIsDigit c = false) (hl : goIsLetter c = false)
    (hop : c ∉ (['+', '-', '*', '/', '(', ')', ','] : List Char)) (hu : c ≠ '_')
    (hz : c ≠ '\x00') (hp : p.curr = ⟨.error, v⟩) :
    nextToken (c :: rest) = (⟨.error, String.mk [c]⟩, rest) ∧
    parseFactorF (fuel + 1) fns st p =
      (FVal.zero, st, perror p ("Неожиданный токен: " ++ v)) := by
  have hns : ¬ goIsSpace c = true := by simp [hs]
  obtain ⟨h1, h2, h3, h4, h5, h6, h7⟩ :
      c ≠ '+' ∧ c ≠ '-' ∧ c ≠ '*' ∧ c ≠ '/' ∧ c ≠ '(' ∧ c ≠ ')' ∧ c ≠ ',' := by
    simpa using hop
  constructor
  · simp [nextToken, skipSpaces, hns, hz, h1, h2, h3, h4, h5, h6, h7, hd, hl, hu]
  · simp [parseFactorF, hp]

/-- C9, witness: the character `@` becomes an error token, and a parser
sitting on that error token raises the unexpected-token error. -/
theorem claim9_lex_error_token_witness :
    nextToken ['@'] = (⟨.error, "@"⟩, []) ∧
    parseFactorF 4 [] ⟨[], []⟩ ⟨[], ⟨.error, "@"⟩, ""⟩ =
      (FVal.zero, ⟨[], []⟩, perror ⟨[], ⟨.error, "@"⟩, ""⟩ ("Неожиданный токен: " ++ "@")) :=
  claim9_lex_error_token '@' [] 3 [] ⟨[], []⟩ ⟨[], ⟨.error, "@"⟩, ""⟩ "@"
    (by decide) (by decide) (by decide) (by decide) (by decide) (by decide) (by decide)

/-! ## Claim C7: store preservation of failed evaluations -/

/-- Every function registered in the map has pairwise-distinct parameter
names. -/
def nodupFns (fns : FuncMap) : Prop :=
  ∀ n fn, lookupFn fns n = some fn → fn.params.Nodup

/-- Restoring after binding with an empty initial backup reproduces the
original lookup for any bound name (distinct parameters, enough
arguments). -/
theorem bl_backup_empty (ps : List String) (args : List FVal) (vars : VarMap) (k : String)
    (hnd : ps.Nodup) (hm : k ∈ ps) (hlen : ps.length ≤ args.length) :
    lookupVar (bindLoop vars [] ps args).2 k = lookupVar vars k := by
  have h2 := bl_backup_mem ps args vars [] k hnd hm hlen
  cases hv : lookupVar vars k <;> simp [hv, lookupVar] at h2 <;> simp [h2]

/-- Evaluation never changes which value any variable name maps to, as
long as every function in the map has distinct parameter names: the only
mutation path is the parameter bind/restore of `evaluateFunction`, which
under that condition is a perfect save/restore. -/
theorem varsPreserved (fuel : Nat) :
    (∀ fns st p, nodupFns fns →
      ∀ n, lookupVar (parseExpressionF fuel fns st p).2.1.vars n = lookupVar st.vars n) ∧
    (∀ fns v st p, nodupFns fns →
      ∀ n, lookupVar (exprLoopF fuel fns v st p).2.1.vars n = lookupVar st.vars n) ∧
    (∀ fns st p, nodupFns fns →
      ∀ n, lookupVar (parseTermF fuel fns st p).2.1.vars n = lookupVar st.vars n) ∧
    (∀ fns v st p, nodupFns fns →
      ∀ n, lookupVar (termLoopF fuel fns v st p).2.1.vars n = lookupVar st.vars n) ∧
    (∀ fns st p, nodupFns fns →
      ∀ n, lookupVar (parseFactorF fuel fns st p).2.1.vars n = lookupVar st.vars n) ∧
    (∀ fns acc st p, nodupFns fns →
      ∀ n, lookupVar (parseArgsF fuel fns acc st p).2.1.vars n = lookupVar st.vars n) ∧
    (∀ fns st fn args, nodupFns fns → fn.params.Nodup → fn.params.length ≤ args.length →
      ∀ n, lookupVar (evaluateFunctionF fuel fns st fn args).2.vars n = lookupVar st.vars n) := by
  induction fuel with
  | zero =>
    refine ⟨?_, ?_, ?_, ?_, ?_, ?_, ?_⟩
    · intro fns st p hns n; rfl
    · intro fns v st p hns n
      by_cases hc : p.curr.typ = .plus ∨ p.curr.typ = .minus
      · simp only [exprLoopF, if_pos hc]
      · simp only [exprLoopF, if_neg hc]
    · intro fns st p hns n; rfl
    · intro fns v st p hns n
      by_cases hc : p.curr.typ = .star ∨ p.curr.typ = .slash
      · simp only [termLoopF, if_pos hc]
      · simp only [termLoopF, if_neg hc]
    · intro fns st p hns n; rfl
    · intro fns acc st p hns n; rfl
    · intro fns st fn args hns hnd hlen n; rfl
  | succ k ih =>
    obtain ⟨ihE, ihEL, ihT, ihTL, ihF, ihA, ihV⟩ := ih
    refine ⟨?_, ?_, ?_, ?_, ?_, ?_, ?_⟩
    · intro fns st p hns n
      rcases ht : parseTermF k fns st p with ⟨v, s1, p1⟩
      have h1 := ihT fns st p hns n
      rw [ht] at h1
      have h2 := ihEL fns v s1 p1 hns n
      simp only [parseExpressionF, ht]
      rw [h2, h1]
    · intro fns v st p hns n
      by_cases hc : p.curr.typ = .plus ∨ p.curr.typ = .minus
      · rcases ht : parseTermF k fns st (pnext p) with ⟨r, s1, p1⟩
        have h1 := ihT fns st (pnext p) hns n
        rw [ht] at h1
        have h2 := ihEL fns (if p.curr.typ = .plus then fadd v r else fsub v r) s1 p1 hns n
        simp only [exprLoopF, if_pos hc, ht]
        rw [h2, h1]
      · simp only [exprLoopF, if_neg hc]
    · intro fns st p hns n
      rcases hf : parseFactorF k fns st p with ⟨v, s1, p1⟩
      have h1 := ihF fns st p hns n
      rw [hf] at h1
      have h2 := ihTL fns v s1 p1 hns n
      simp only [parseTermF, hf]
      rw [h2, h1]
    · intro fns v st p hns n
      by_cases hc : p.curr.typ = .star ∨ p.curr.typ = .slash
      · rcases hf : parseFactorF k fns st (pnext p) with ⟨r, s1, p1⟩
        have h1 := ihF fns st (pnext p) hns n
        rw [hf] at h1
        have h2 := ihTL fns (if p.curr.typ = .star then fmul v r
          else if feqZero r then fdivByZero v else fdiv v r) s1 p1 hns n
        simp only [termLoopF, if_pos hc, hf]
        rw [h2, h1]
      · simp only [termLoopF, if_neg hc]
    · intro fns st p hns n
      by_cases hn : p.curr.typ = .number
      · rcases hq : parseNumberQ p.curr.value with _ | q
        · simp only [parseFactorF, if_pos hn, hq]
        · simp only [parseFactorF, if_pos hn, hq]
      · by_cases hi : p.curr.typ = .ident
        · by_cases hlp : (pnext p).curr.typ = .lparen
          · rcases hargs : (if (pnext (pnext p)).curr.typ ≠ .rparen
                then parseArgsF k fns [] st (pnext (pnext p))
                else ([], st, pnext (pnext p))) with ⟨args, s1, p1⟩
            have h1 : lookupVar s1.vars n = lookupVar st.vars n := by
              split at hargs
              · have h2 := ihA fns [] st (pnext (pnext p)) hns n
                rw [hargs] at h2; exact h2
              · rw [show s1 = st from congrArg (fun x => x.2.1) hargs.symm]
            by_cases hr1 : p1.curr.typ = .rparen
            · have hr2 : ¬ (p1.curr.typ ≠ TokenType.rparen) := by simp [hr1]
              rcases hfn : lookupFn fns p.curr.value with _ | fn
              · simp only [parseFactorF, if_neg hn, if_pos hi, if_pos hlp, hargs, hfn,
                  if_neg hr2]
                exact h1
              · by_cases hlen : fn.params.length ≠ args.length
                · simp only [parseFactorF, if_neg hn, if_pos hi, if_pos hlp, hargs, hfn,
                    if_neg hr2, if_pos hlen]
                  exact h1
                · rcases hev : evaluateFunctionF k fns s1 fn args with ⟨v, s2⟩
                  have hnd : fn.params.Nodup := hns p.curr.value fn hfn
                  have hle : fn.params.length ≤ args.length := by omega
                  have h3 := ihV fns s1 fn args hns hnd hle n
                  rw [hev] at h3
                  simp only [parseFactorF, if_neg hn, if_pos hi, if_pos hlp, hargs, hfn,
                    if_neg hr2, if_neg hlen, hev]
                  rw [h3, h1]
            · simp only [parseFactorF, if_neg hn, if_pos hi, if_pos hlp, hargs,
                if_pos hr1]
              exact h1
          · rcases hv : lookupVar st.vars p.curr.value with _ | v
            · simp only [parseFactorF, if_neg hn, if_pos hi, if_neg hlp, hv]
            · simp only [parseFactorF, if_neg hn, if_pos hi, if_neg hlp, hv]
        · by_cases hl : p.curr.typ = .lparen
          · rcases he : parseExpressionF k fns st (pnext p) with ⟨v, s1, p1⟩
            have h1 := ihE fns st (pnext p) hns n
            rw [he] at h1
            by_cases hr1 : p1.curr.typ = .rparen
            · have hr2 : ¬ (p1.curr.typ ≠ TokenType.rparen) := by simp [hr1]
              simp only [parseFactorF, if_neg hn, if_neg hi, if_pos hl, he, if_neg hr2]
              exact h1
            · simp only [parseFactorF, if_neg hn, if_neg hi, if_pos hl, he, if_pos hr1]
              exact h1
          · simp only [parseFactorF, if_neg hn, if_neg hi, if_neg hl]
    · intro fns acc st p hns n
      rcases he : parseExpressionF k fns st p with ⟨v, s1, p1⟩
      have h1 := ihE fns st p hns n
      rw [he] at h1
      by_cases hc : p1.curr.typ = .comma
      · have h2 := ihA fns (acc ++ [v]) s1 (pnext p1) hns n
        simp only [parseArgsF, he, if_pos hc]
        rw [h2, h1]
      · simp only [parseArgsF, he, if_neg hc]
        exact h1
    · intro fns st fn args hns hnd hlen n
      rcases hbl : bindLoop st.vars [] fn.params args with ⟨vars1, backup⟩
      rcases hpe : parseExpressionF k fns { st with vars := vars1 }
        (initParser fn.expression) with ⟨v, st1, p1⟩
      simp only [evaluateFunctionF, hbl, hpe]
      by_cases hm : n ∈ fn.params
      · have hbk := bl_backup_empty fn.params args st.vars n hnd hm hlen
        rw [hbl] at hbk
        split <;> · rw [rl_mem _ _ _ _ hm, hbk]
      · have h1 := ihE fns { st with vars := vars1 } (initParser fn.expression) hns n
        rw [hpe] at h1
        have h2 := bl_vars_not_mem fn.params args st.vars [] n hm
        rw [hbl] at h2
        split <;> · rw [rl_not_mem _ _ _ _ hm]; exact h1.trans h2

/-- Corollary: `evaluateExpression` (succeeding or not) never changes any
variable lookup when every stored function has distinct parameter names. -/
theorem evalExpr_vars_preserved (fuel : Nat) (fns : FuncMap) (st : EStore) (expr : String)
    (hns : nodupFns fns) (n : String) :
    lookupVar (evaluateExpression fuel fns st expr).2.1.vars n = lookupVar st.vars n := by
  rcases hpe : parseExpressionF fuel fns st (initParser expr) with ⟨v, s1, p1⟩
  have h1 := (varsPreserved fuel).1 fns st (initParser expr) hns n
  rw [hpe] at h1
  simp only [evaluateExpression, hpe]
  split <;> simpa using h1

/-- A decidable sufficient condition for `nodupFns`. -/
theorem nodupFns_of_forall (fns : FuncMap)
    (h : ∀ e ∈ fns, (Prod.snd e).params.Nodup) : nodupFns fns := by
  intro n fn hl
  induction fns with
  | nil => simp [lookupFn] at hl
  | cons hd tl ih =>
    obtain ⟨hk, hv⟩ := hd
    by_cases he : hk = n
    · simp only [lookupFn, if_pos he, Option.some.injEq] at hl
      subst hl
      exact h (hk, hv) (List.mem_cons_self _ _)
    · simp only [lookupFn, if_neg he] at hl
      exact ih (fun e me => h e (List.mem_cons_of_mem _ me)) hl

/-- C7, counterexample: the assignment `x = f(1,2) + *` has a right-hand
side that ends in a parse error (so the statement is discarded and `x` is
never created), yet the Store is NOT the same afterwards: the call
`f(1,2)` of the duplicate-parameter function `f(p, p): 0`, made before the
error, leaks a variable `p` into the Store. -/
theorem claim7_counterexample :
    (processLine 100 (runLines 100 initSt ["f(p, p): 0"]) "x = f(1,2) + *;").2 =
      Branch.assign "x" ∧
    (processLine 100 (runLines 100 initSt ["f(p, p): 0"]) "x = f(1,2) + *;").1.out =
      ["ОШИБКА при вычислении выражения: Неожиданный токен: "] ∧
    lookupVar (runLines 100 initSt ["f(p, p): 0"]).vars "p" = none ∧
    lookupVar (processLine 100 (runLines 100 initSt ["f(p, p): 0"])
      "x = f(1,2) + *;").1.vars "x" = none ∧
    lookupVar (processLine 100 (runLines 100 initSt ["f(p, p): 0"])
      "x = f(1,2) + *;").1.vars "p" = some ⟨true, FVal.finite ⟨1, 1⟩⟩ := by
  decide

/-- C7, amended: when the right-hand evaluation of a typed initialization
or a plain assignment ends with the error flag set, the statement performs
no mutation of its own: the function map is untouched and — provided every
stored function has pairwise-distinct parameter names, ruling out the
duplicate-parameter leak of the counterexample — every variable lookup is
exactly as before the line. -/
theorem claim7_discard_on_error (fuel : Nat) (st : InterpSt) (l left right : List Char)
    (hns : nodupFns st.funcs)
    (herr : (evaluateExpression fuel st.funcs ⟨st.vars, st.out⟩
      (String.mk (goTrimL right))).2.2 = false) :
    ((processTypedInit fuel st l left right).1.funcs = st.funcs ∧
      ∀ n, lookupVar (processTypedInit fuel st l left right).1.vars n = lookupVar st.vars n) ∧
    ((processAssign fuel st left right).1.funcs = st.funcs ∧
      ∀ n, lookupVar (processAssign fuel st left right).1.vars n = lookupVar st.vars n) := by
  rcases hev : evaluateExpression fuel st.funcs ⟨st.vars, st.out⟩
    (String.mk (goTrimL right)) with ⟨val, est, ok⟩
  have hok : ok = false := by rw [hev] at herr; exact herr
  subst hok
  have hvars : ∀ n, lookupVar est.vars n = lookupVar st.vars n := by
    intro n
    have h1 := evalExpr_vars_preserved fuel st.funcs ⟨st.vars, st.out⟩
      (String.mk (goTrimL right)) hns n
    rw [hev] at h1
    exact h1
  constructor
  · rcases hio : idxOf left '(' with _ | io
    · simp [processTypedInit, hio]
    · simp only [processTypedInit, hio, hev]
      exact ⟨rfl, hvars⟩
  · simp only [processAssign, hev]
    exact ⟨rfl, hvars⟩

/-- C7, witness: with one float variable `y` and no functions, both a
typed initialization and a plain assignment whose right-hand side is the
erroring expression `+` leave the function map empty and `y` unchanged. -/
theorem claim7_discard_on_error_witness :
    (processTypedInit 10 ⟨[("y", ⟨true, FVal.finite ⟨3, 1⟩⟩)], [], []⟩
        "y(i)=+".data "y(i".data "+".data).1.funcs = [] ∧
    lookupVar (processTypedInit 10 ⟨[("y", ⟨true, FVal.finite ⟨3, 1⟩⟩)], [], []⟩
        "y(i)=+".data "y(i".data "+".data).1.vars "y" =
      lookupVar [("y", ⟨true, FVal.finite ⟨3, 1⟩⟩)] "y" ∧
    (processAssign 10 ⟨[("y", ⟨true, FVal.finite ⟨3, 1⟩⟩)], [], []⟩
        "y(i".data "+".data).1.funcs = [] ∧
    lookupVar (processAssign 10 ⟨[("y", ⟨true, FVal.finite ⟨3, 1⟩⟩)], [], []⟩
        "y(i".data "+".data).1.vars "y" =
      lookupVar [("y", ⟨true, FVal.finite ⟨3, 1⟩⟩)] "y" := by
  have h := claim7_discard_on_error 10 ⟨[("y", ⟨true, FVal.finite ⟨3, 1⟩⟩)], [], []⟩
    "y(i)=+".data "y(i".data "+".data (nodupFns_of_forall _ (by decide)) (by decide)
  exact ⟨h.1.1, h.1.2 "y", h.2.1, h.2.2 "y"⟩

/-! ## Claim C10: print-prefix routing -/

/-- One list is an initial segment of another. -/
def isPre (xs ys : List Char) : Prop := ∃ t, ys = xs ++ t

theorem isPre_trans {a b c : List Char} (h1 : isPre a b) (h2 : isPre b c) : isPre a c := by
  obtain ⟨t1, rfl⟩ := h1
  obtain ⟨t2, rfl⟩ := h2
  exact ⟨t1 ++ t2, by simp⟩

theorem hp_append (pat xs t : List Char) (h : hasPrefixL pat xs = true) :
    hasPrefixL pat (xs ++ t) = true := by
  induction pat generalizing xs with
  | nil => rfl
  | cons p ps ih =>
    cases xs with
    | nil => simp [hasPrefixL] at h
    | cons c cs =>
      simp only [hasPrefixL, Bool.and_eq_true] at h ⊢
      exact ⟨h.1, ih cs h.2⟩

theorem hp_of_isPre (pat xs ys : List Char) (h : hasPrefixL pat xs = true)
    (hpre : isPre xs ys) : hasPrefixL pat ys = true := by
  obtain ⟨t, rfl⟩ := hpre
  exact hp_append pat xs t h

theorem splitFirst_isPre (pat l b a : List Char) (h : splitFirst pat l = some (b, a)) :
    isPre b l := by
  induction l generalizing b a with
  | nil => simp [splitFirst] at h
  | cons c cs ih =>
    by_cases hp : hasPrefixL pat (c :: cs) = true
    · simp only [splitFirst, if_pos hp, Option.some.injEq, Prod.mk.injEq] at h
      exact ⟨c :: cs, by rw [← h.1]; rfl⟩
    · simp only [splitFirst, if_neg hp] at h
      rcases hs : splitFirst pat cs with _ | ⟨b', a'⟩
      · rw [hs] at h; simp at h
      · rw [hs] at h
        simp only [Option.some.injEq, Prod.mk.injEq] at h
        obtain ⟨t, ht⟩ := ih b' a' hs
        exact ⟨t, by rw [← h.1, List.cons_append, ← ht]⟩

theorem dw_head (p : Char → Bool) (xs : List Char) (c : Char) (rest : List Char)
    (h : List.dropWhile p xs = c :: rest) : p c = false := by
  induction xs with
  | nil => simp at h
  | cons d ds ih =>
    by_cases hd : p d = true
    · rw [List.dropWhile_cons_of_pos hd] at h
      exact ih h
    · rw [List.dropWhile_cons_of_neg hd] at h
      cases h
      simpa using hd

theorem revDropRev_isPre (p : Char → Bool) (xs : List Char) :
    isPre ((List.dropWhile p xs.reverse).reverse) xs := by
  refine ⟨(List.takeWhile p xs.reverse).reverse, ?_⟩
  have h := List.takeWhile_append_dropWhile (p := p) (l := xs.reverse)
  calc xs = xs.reverse.reverse := by simp
    _ = (List.takeWhile p xs.reverse ++ List.dropWhile p xs.reverse).reverse := by rw [h]
    _ = (List.dropWhile p xs.reverse).reverse ++ (List.takeWhile p xs.reverse).reverse := by
        rw [List.reverse_append]

theorem goTrimL_head (cs : List Char) (c : Char) (rest : List Char)
    (h : goTrimL cs = c :: rest) : goIsSpace c = false := by
  have hpre : isPre (c :: rest) (List.dropWhile goIsSpace cs) := by
    rw [← h]
    exact revDropRev_isPre goIsSpace (List.dropWhile goIsSpace cs)
  obtain ⟨t, ht⟩ := hpre
  exact dw_head goIsSpace cs c (rest ++ t) ht

theorem goTrimL_isPre_of_head (c : Char) (xs : List Char) (hc : goIsSpace c = false) :
    isPre (goTrimL (c :: xs)) (c :: xs) := by
  have hdw : List.dropWhile goIsSpace (c :: xs) = c :: xs :=
    List.dropWhile_cons_of_neg (by simp [hc])
  have := revDropRev_isPre goIsSpace (c :: xs)
  simpa [goTrimL, hdw] using this

theorem take_isPre (n : Nat) (xs : List Char) : isPre (xs.take n) xs :=
  ⟨xs.drop n, (List.take_append_drop n xs).symm⟩

theorem noPrint_trimmed_piece (l piece : List Char)
    (hhead : ∀ c rest, l = c :: rest → goIsSpace c = false)
    (hpre : isPre piece l) (hpr : hasPrefixL "print".data l = false) :
    hasPrefixL "print".data (goTrimL piece) = false := by
  by_contra hcon
  rw [Bool.not_eq_false] at hcon
  cases piece with
  | nil => exact absurd hcon (by decide)
  | cons c rest =>
    obtain ⟨t, ht⟩ := hpre
    have hc : goIsSpace c = false := hhead c (rest ++ t) (by rw [ht]; rfl)
    have h1 : isPre (goTrimL (c :: rest)) (c :: rest) := goTrimL_isPre_of_head c rest hc
    have h2 : isPre (goTrimL (c :: rest)) l := isPre_trans h1 ⟨t, ht⟩
    have h3 := hp_of_isPre "print".data _ _ hcon h2
    rw [h3] at hpr
    cases hpr

theorem pp_preserves (st : InterpSt) (rest : List Char) :
    (processPrint st rest).vars = st.vars ∧ (processPrint st rest).funcs = st.funcs := by
  unfold processPrint
  split
  · exact ⟨rfl, rfl⟩
  · split <;> (dsimp only; split <;> exact ⟨rfl, rfl⟩)

theorem pfd_branch (st : InterpSt) (l left right : List Char) :
    ∃ o, (processFuncDef st l left right).2 = Branch.funcDef o := by
  simp only [processFuncDef]
  split
  · split
    · exact ⟨none, rfl⟩
    · exact ⟨some _, rfl⟩
  · exact ⟨none, rfl⟩

theorem pti_branch (fuel : Nat) (st : InterpSt) (l left right : List Char) :
    (processTypedInit fuel st l left right).2 = Branch.typedInit none ∨
    ∃ io, idxOf left '(' = some io ∧
      (processTypedInit fuel st l left right).2 =
        Branch.typedInit (some (String.mk (goTrimL (left.take io)))) := by
  rcases hio : idxOf left '(' with _ | io
  · left
    simp [processTypedInit, hio]
  · right
    refine ⟨io, rfl, ?_⟩
    rcases hev : evaluateExpression fuel st.funcs ⟨st.vars, st.out⟩
      (String.mk (goTrimL right)) with ⟨val, est, ok⟩
    simp only [processTypedInit, hio, hev]
    split
    · rfl
    · split
      · rfl
      · split <;> rfl

theorem pa_branch (fuel : Nat) (st : InterpSt) (left right : List Char) :
    (processAssign fuel st left right).2 = Branch.assign (String.mk (goTrimL left)) := by
  rcases hev : evaluateExpression fuel st.funcs ⟨st.vars, st.out⟩
    (String.mk (goTrimL right)) with ⟨val, est, ok⟩
  simp only [processAssign, hev]
  split
  · rfl
  · split <;> rfl

/-- C10, counterexample: the assignment line `a = f(1,2);` (which does not
start with `print` and is routed to the assignment handler) CAN create a
variable whose name starts with `print`: the called function's duplicate
parameter `printx` leaks out of the save/restore dance and survives the
line. -/
theorem claim10_counterexample :
    (processLine 100 (runLines 100 initSt ["f(printx, printx): 0"]) "a = f(1,2);").2 =
      Branch.assign "a" ∧
    lookupVar (runLines 100 initSt ["f(printx, printx): 0"]).vars "printx" = none ∧
    lookupVar (processLine 100 (runLines 100 initSt ["f(printx, printx): 0"])
      "a = f(1,2);").1.vars "printx" = some ⟨true, FVal.finite ⟨1, 1⟩⟩ ∧
    hasPrefixL "print".data "printx".data = true := by
  decide

/-- C10, amended: every line whose trimmed, semicolon-stripped text starts
with the five characters `print` is handled by the print handler (branch
`print`), which changes neither Store map; and a line routed to the
assignment or typed-initialization handler never has a target name
starting with `print` (the target is a trimmed prefix of the line, so a
`print` prefix of the target would be a `print` prefix of the line).
Creating a `print`-named variable through a right-hand side's
duplicate-parameter leak (the counterexample) remains possible. -/
theorem claim10_print_routing :
    (∀ (fuel : Nat) (st : InterpSt) (line : String),
      hasPrefixL "print".data (goTrimL (stripSemi (goTrimL line.data))) = true →
      (processLine fuel st line).2 = Branch.print ∧
      (processLine fuel st line).1.vars = st.vars ∧
      (processLine fuel st line).1.funcs = st.funcs) ∧
    (∀ (fuel : Nat) (st : InterpSt) (line : String) (nm : String),
      (processLine fuel st line).2 = Branch.assign nm ∨
      (processLine fuel st line).2 = Branch.typedInit (some nm) →
      hasPrefixL "print".data nm.data = false) := by
  constructor
  · intro fuel st line h
    by_cases he : goTrimL line.data = []
    · rw [he] at h
      exact absurd h (by decide)
    · simp only [processLine, if_neg he, processStmt, if_pos h]
      exact ⟨trivial, (pp_preserves st _).1, (pp_preserves st _).2⟩
  · intro fuel st line nm h
    by_cases he : goTrimL line.data = []
    · simp only [processLine, if_pos he] at h
      rcases h with h | h <;> exact Branch.noConfusion h
    · by_cases hpr : hasPrefixL "print".data (goTrimL (stripSemi (goTrimL line.data))) = true
      · simp only [processLine, if_neg he, processStmt, if_pos hpr] at h
        rcases h with h | h <;> exact Branch.noConfusion h
      · have hprf : hasPrefixL "print".data (goTrimL (stripSemi (goTrimL line.data))) = false := by
          simpa using hpr
        have hhead : ∀ c rest, goTrimL (stripSemi (goTrimL line.data)) = c :: rest →
            goIsSpace c = false := fun c rest hcr =>
          goTrimL_head (stripSemi (goTrimL line.data)) c rest hcr
        simp only [processLine, if_neg he, processStmt, if_neg hpr] at h
        rcases hs1 : splitFirst [':'] (goTrimL (stripSemi (goTrimL line.data)))
          with _ | ⟨left1, right1⟩
        · rcases hs2 : splitFirst [')', '='] (goTrimL (stripSemi (goTrimL line.data)))
            with _ | ⟨left2, right2⟩
          · rcases hs3 : splitFirst ['='] (goTrimL (stripSemi (goTrimL line.data)))
              with _ | ⟨left3, right3⟩
            · simp only [hs1, hs2, hs3] at h
              rcases h with h | h <;> exact Branch.noConfusion h
            · simp only [hs1, hs2, hs3] at h
              rcases h with h | h
              · rw [pa_branch] at h
                have hnm : nm = String.mk (goTrimL left3) := (Branch.assign.inj h).symm
                subst hnm
                exact noPrint_trimmed_piece _ left3 hhead
                  (splitFirst_isPre _ _ _ _ hs3) hprf
              · rw [pa_branch] at h
                exact Branch.noConfusion h
          · simp only [hs1, hs2] at h
            rcases pti_branch fuel st (goTrimL (stripSemi (goTrimL line.data))) left2 right2
              with hb | ⟨io, hio, hb⟩
            · rcases h with h | h <;> rw [hb] at h
              · exact Branch.noConfusion h
              · exact Option.noConfusion (Branch.typedInit.inj h)
            · rcases h with h | h <;> rw [hb] at h
              · exact Branch.noConfusion h
              · have hnm : nm = String.mk (goTrimL (left2.take io)) :=
                  (Option.some.inj (Branch.typedInit.inj h)).symm
                subst hnm
                exact noPrint_trimmed_piece _ (left2.take io) hhead
                  (isPre_trans (take_isPre io left2) (splitFirst_isPre _ _ _ _ hs2)) hprf
        · simp only [hs1] at h
          rcases pfd_branch st (goTrimL (stripSemi (goTrimL line.data))) left1 right1
            with ⟨o, hb⟩
          rcases h with h | h <;> rw [hb] at h <;> exact Branch.noConfusion h

/-- C10, witness: `printer = 5;` is routed to the print handler and leaves
the Store unchanged, and the assignment `a = 1;` (branch `assign "a"`) has
a target not starting with `print`. -/
theorem claim10_print_routing_witness :
    (processLine 9 initSt "printer = 5;").2 = Branch.print ∧
    (processLine 9 initSt "printer = 5;").1.vars = initSt.vars ∧
    (processLine 9 initSt "printer = 5;").1.funcs = initSt.funcs ∧
    hasPrefixL "print".data ("a" : String).data = false :=
  ⟨(claim10_print_routing.1 9 initSt "printer = 5;" (by decide)).1,
   (claim10_print_routing.1 9 initSt "printer = 5;" (by decide)).2.1,
   (claim10_print_routing.1 9 initSt "printer = 5;" (by decide)).2.2,
   claim10_print_routing.2 9 initSt "a = 1;" "a" (Or.inl (by decide))⟩

/-- C5, witness: `zz` undeclared as a variable, `g()` undeclared as a
function (both diagnostics, no error flag), and `g()` with `g` declared at
one parameter (arity error sets the flag). -/
theorem claim5_undeclared_and_arity_witness :
    parseFactorF 6 [] ⟨[], []⟩ (initParser "zz") =
      (FVal.zero, ⟨[], [undeclVarMsg "zz"]⟩, pnext (initParser "zz")) ∧
    parseFactorF 6 [] ⟨[], []⟩ (initParser "g()") =
      (FVal.zero, ⟨[], [undeclFnMsg "g"]⟩, pnext (pnext (pnext (initParser "g()")))) ∧
    parseFactorF 6 [("g", ⟨["a"], "a"⟩)] ⟨[], []⟩ (initParser "g()") =
      (FVal.zero, ⟨[], []⟩,
        perror (pnext (pnext (pnext (initParser "g()")))) (arityMsg "g" 1 0)) :=
  ⟨(claim5_undeclared_and_arity 5 [] ⟨[], []⟩ (initParser "zz") "zz" (by decide)).1
      (by decide) (by decide),
   ((claim5_undeclared_and_arity 5 [] ⟨[], []⟩ (initParser "g()") "g" (by decide)).2
      [] ⟨[], []⟩ (pnext (pnext (initParser "g()"))) (by decide) (by decide) (by decide)).1
      (by decide),
   ((claim5_undeclared_and_arity 5 [("g", ⟨["a"], "a"⟩)] ⟨[], []⟩ (initParser "g()") "g"
      (by decide)).2
      [] ⟨[], []⟩ (pnext (pnext (initParser "g()"))) (by decide) (by decide) (by decide)).2
      ⟨["a"], "a"⟩ (by decide) (by decide)⟩
